import Mathlib

/-!
Verification of the pyls directory-listing engine (src/pyls.py, with the
earlier fallback collation module src/pyls/pyls.py).

Shallow embedding conventions:
* A filesystem path is its list of segments (pathlib.PurePath.parts);
  str(path) joins the segments with "/".
* The metadata that the program reads through lstat, pwd, grp, stat.filemode
  and strftime is external input (spec section 6); it appears here as fields
  of Meta, already resolved to the strings and numbers the code consumes.
* locale.strxfrm is an external collation transform; it is a parameter
  xfrm : String -> String throughout, and concrete runs instantiate it with
  the identity (the C-locale behaviour).
* Python's sorted is a stable ascending sort on the key; we embed it as
  Mathlib's insertionSort, which computes the same function for a total
  transitive comparison.  sorted(..., reverse=True) is the stable descending
  sort, embedded as insertionSort with the swapped comparison.
* Machine integers are Nat/Int (sizes can not overflow in Python).
-/

namespace Pyls

/-- A filesystem path as its list of segments, mirroring pathlib parts. -/
abbrev Path : Type := List String

/-- str(path) in pathlib joins the parts with "/" (written as an explicit
recursion so that its length is easy to reason about). -/
def pathStr : Path → String
  | [] => ""
  | [n] => n
  | n :: rest => n ++ "/" ++ pathStr rest

/-- Appending a ".." part strictly lengthens the printed path, so the
pseudo-entry path p / ".." never prints like p itself. -/
theorem pathStr_length_dotdot : ∀ p : Path, (pathStr p).length < (pathStr (p ++ [".."])).length
  | [] => by decide
  | [a] => by
      show a.length < (a ++ "/" ++ "..").length
      simp only [String.length_append]
      have h1 : ("/" : String).length = 1 := rfl
      have h2 : (".." : String).length = 2 := rfl
      omega
  | a :: b :: rest => by
      have ih := pathStr_length_dotdot (b :: rest)
      show (a ++ "/" ++ pathStr (b :: rest)).length <
        (a ++ "/" ++ pathStr ((b :: rest) ++ [".."])).length
      simp only [String.length_append]
      omega

theorem pathStr_dotdot_ne (p : Path) : pathStr (p ++ [".."]) ≠ pathStr p := by
  intro h
  have := pathStr_length_dotdot p
  rw [h] at this
  omega

/-- pathlib name: the last segment (empty for the empty path). -/
def pathName (p : Path) : String := p.getLast?.getD ""

/-- Externally resolved per-path metadata (spec section 6: the metadata
provider returns these already formatted; lstat, owner and group resolution,
mode string and mtime formatting are out of the core's scope). -/
structure Meta where
  st_size : Int := 0
  st_blocks : Nat := 0
  is_dir : Bool := false
  is_symlink : Bool := false
  mode_string : String := ""
  nlink : Nat := 0
  owner : String := ""
  group : String := ""
  mtime_str : String := ""
  resolved_target : String := ""
deriving DecidableEq, Repr

/-- Fallback metadata for paths the model world does not contain. -/
def defaultMeta : Meta := {}

/-- The filesystem as the two oracles the code consults: iterdir (child
names of a directory, in enumeration order) and lstat and friends (Meta). -/
structure FS where
  children : Path → List String
  meta : Path → Meta

/-- The Config dataclass of src/pyls.py.  terminal_width stands for the
shutil.get_terminal_size() call of the short-format renderer, which is an
external width provider per spec section 6. -/
structure Config where
  list_format : Bool := false
  show_all : Bool := false
  sort_by_size : Bool := false
  recursive : Bool := false
  use_column_layout : Bool := false
  paths : List Path := [[]]
  terminal_width : Nat := 80
deriving DecidableEq, Repr

/-- Child paths of a directory: path / name for each name from iterdir. -/
def childPaths (fs : FS) (p : Path) : List Path :=
  (fs.children p).map (fun n => p ++ [n])

/-- The name component of the sort key: locale.strxfrm(str(path)). -/
def nameKey (xfrm : String → String) (p : Path) : String := xfrm (pathStr p)

/-- Code-point lexicographic comparison of character lists, the order Python
uses to compare strings.  (Lean's own String order is the same relation but
its comparison function does not reduce inside the kernel, so concrete runs
could not be evaluated through it.) -/
def lexLEb : List Char → List Char → Bool
  | [], _ => true
  | _ :: _, [] => false
  | a :: as, b :: bs =>
      if a.toNat < b.toNat then true
      else if b.toNat < a.toNat then false
      else lexLEb as bs

/-- Python string comparison s1 <= s2. -/
def pyStrLEb (a b : String) : Bool := lexLEb a.data b.data

theorem lexLEb_cons (a b : Char) (as bs : List Char) :
    lexLEb (a :: as) (b :: bs) = true ↔
      a.toNat < b.toNat ∨ (a.toNat = b.toNat ∧ lexLEb as bs = true) := by
  conv_lhs => rw [lexLEb]
  split_ifs with h1 h2
  · simp [h1]
  · simp only [Bool.false_eq_true, false_iff]
    rintro (h | ⟨h, _⟩) <;> omega
  · constructor
    · intro hr
      exact Or.inr ⟨by omega, hr⟩
    · rintro (h | ⟨_, hr⟩)
      · omega
      · exact hr

theorem lexLEb_total : ∀ as bs : List Char, lexLEb as bs = true ∨ lexLEb bs as = true
  | [], _ => Or.inl rfl
  | _ :: _, [] => Or.inr rfl
  | a :: as, b :: bs => by
      rw [lexLEb_cons, lexLEb_cons]
      rcases Nat.lt_trichotomy a.toNat b.toNat with h | h | h
      · exact Or.inl (Or.inl h)
      · rcases lexLEb_total as bs with ih | ih
        · exact Or.inl (Or.inr ⟨h, ih⟩)
        · exact Or.inr (Or.inr ⟨h.symm, ih⟩)
      · exact Or.inr (Or.inl h)

theorem lexLEb_trans : ∀ as bs cs : List Char, lexLEb as bs = true → lexLEb bs cs = true →
    lexLEb as cs = true
  | [], _, _, _, _ => rfl
  | _ :: _, [], _, hab, _ => by simp [lexLEb] at hab
  | _ :: _, _ :: _, [], _, hbc => by simp [lexLEb] at hbc
  | a :: as, b :: bs, c :: cs, hab, hbc => by
      rw [lexLEb_cons] at hab hbc ⊢
      rcases hab with h | ⟨h, h2⟩ <;> rcases hbc with g | ⟨g, g2⟩
      · exact Or.inl (h.trans g)
      · exact Or.inl (g ▸ h)
      · exact Or.inl (h ▸ g)
      · exact Or.inr ⟨h.trans g, lexLEb_trans as bs cs h2 g2⟩

theorem lexLEb_antisymm : ∀ as bs : List Char, lexLEb as bs = true → lexLEb bs as = true →
    as = bs
  | [], [], _, _ => rfl
  | [], _ :: _, _, hba => by simp [lexLEb] at hba
  | _ :: _, [], hab, _ => by simp [lexLEb] at hab
  | a :: as, b :: bs, hab, hba => by
      rw [lexLEb_cons] at hab hba
      rcases hab with h | ⟨h, h2⟩
      · rcases hba with g | ⟨g, _⟩ <;> omega
      · rcases hba with g | ⟨g, g2⟩
        · omega
        · have hc : a = b := Char.eq_of_val_eq (UInt32.ext h)
          rw [hc, lexLEb_antisymm as bs h2 g2]

/-- Python string comparison is antisymmetric: equal both ways means equal
strings. -/
theorem pyStrLEb_antisymm (a b : String) (hab : pyStrLEb a b = true)
    (hba : pyStrLEb b a = true) : a = b := by
  cases a
  cases b
  exact congrArg String.mk (lexLEb_antisymm _ _ hab hba)

/-- The sort key comparison of _sort_key: under -S the key is the tuple
(-st_size, strxfrm(str(path))) compared lexicographically (Python tuple
order), otherwise the bare strxfrm(str(path)) string. -/
def pyKeyLEb (cfg : Config) (fs : FS) (xfrm : String → String) (a b : Path) : Bool :=
  if cfg.sort_by_size then
    decide ((-(fs.meta a).st_size : Int) < -(fs.meta b).st_size) ||
      (decide ((-(fs.meta a).st_size : Int) = -(fs.meta b).st_size) &&
        pyStrLEb (nameKey xfrm a) (nameKey xfrm b))
  else
    pyStrLEb (nameKey xfrm a) (nameKey xfrm b)

/-- The key comparison as a relation, for Python's ascending sorted(). -/
def keyRel (cfg : Config) (fs : FS) (xfrm : String → String) : Path → Path → Prop :=
  fun a b => pyKeyLEb cfg fs xfrm a b = true

/-- The swapped comparison, for sorted(..., reverse=True). -/
def keyRelRev (cfg : Config) (fs : FS) (xfrm : String → String) : Path → Path → Prop :=
  fun a b => pyKeyLEb cfg fs xfrm b a = true

instance keyRel.decidable (cfg : Config) (fs : FS) (xfrm : String → String) :
    DecidableRel (keyRel cfg fs xfrm) :=
  fun a b => instDecidableEqBool (pyKeyLEb cfg fs xfrm a b) true

instance keyRelRev.decidable (cfg : Config) (fs : FS) (xfrm : String → String) :
    DecidableRel (keyRelRev cfg fs xfrm) :=
  fun a b => instDecidableEqBool (pyKeyLEb cfg fs xfrm b a) true

/-- Python sorted(key=_sort_key): stable ascending sort on the key. -/
def pySortAsc (cfg : Config) (fs : FS) (xfrm : String → String) (l : List Path) : List Path :=
  List.insertionSort (keyRel cfg fs xfrm) l

/-- Python sorted(key=_sort_key, reverse=True): stable descending sort. -/
def pySortDesc (cfg : Config) (fs : FS) (xfrm : String → String) (l : List Path) : List Path :=
  List.insertionSort (keyRelRev cfg fs xfrm) l

theorem pyKeyLEb_total (cfg : Config) (fs : FS) (xfrm : String → String) (a b : Path) :
    pyKeyLEb cfg fs xfrm a b = true ∨ pyKeyLEb cfg fs xfrm b a = true := by
  unfold pyKeyLEb
  generalize (-(fs.meta a).st_size : Int) = x
  generalize (-(fs.meta b).st_size : Int) = y
  generalize nameKey xfrm a = ka
  generalize nameKey xfrm b = kb
  cases hs : cfg.sort_by_size <;> simp [hs]
  · exact lexLEb_total ka.data kb.data
  · rcases lt_trichotomy x y with hl | he | hg
    · exact Or.inl (Or.inl hl)
    · rcases lexLEb_total ka.data kb.data with hn | hn
      · exact Or.inl (Or.inr ⟨he, hn⟩)
      · exact Or.inr (Or.inr ⟨he.symm, hn⟩)
    · exact Or.inr (Or.inl hg)

theorem pyKeyLEb_trans (cfg : Config) (fs : FS) (xfrm : String → String) (a b c : Path)
    (hab : pyKeyLEb cfg fs xfrm a b = true) (hbc : pyKeyLEb cfg fs xfrm b c = true) :
    pyKeyLEb cfg fs xfrm a c = true := by
  unfold pyKeyLEb at *
  generalize hxa : (-(fs.meta a).st_size : Int) = x at *
  generalize hxb : (-(fs.meta b).st_size : Int) = y at *
  generalize hxc : (-(fs.meta c).st_size : Int) = z at *
  generalize hka : nameKey xfrm a = ka at *
  generalize hkb : nameKey xfrm b = kb at *
  generalize hkc : nameKey xfrm c = kc at *
  cases hs : cfg.sort_by_size <;> simp [hs] at hab hbc ⊢
  · exact lexLEb_trans _ _ _ hab hbc
  · rcases hab with hab | ⟨hab, hab2⟩ <;> rcases hbc with hbc | ⟨hbc, hbc2⟩
    · exact Or.inl (hab.trans hbc)
    · exact Or.inl (hbc ▸ hab)
    · exact Or.inl (hab ▸ hbc)
    · exact Or.inr ⟨hab.trans hbc, lexLEb_trans _ _ _ hab2 hbc2⟩

instance keyRel.total (cfg : Config) (fs : FS) (xfrm : String → String) :
    IsTotal Path (keyRel cfg fs xfrm) :=
  ⟨fun a b => pyKeyLEb_total cfg fs xfrm a b⟩

instance keyRel.trans (cfg : Config) (fs : FS) (xfrm : String → String) :
    IsTrans Path (keyRel cfg fs xfrm) :=
  ⟨fun a b c => pyKeyLEb_trans cfg fs xfrm a b c⟩

instance keyRelRev.total (cfg : Config) (fs : FS) (xfrm : String → String) :
    IsTotal Path (keyRelRev cfg fs xfrm) := by
  refine ⟨fun a b => ?_⟩
  unfold keyRelRev
  exact (pyKeyLEb_total cfg fs xfrm a b).symm

instance keyRelRev.trans (cfg : Config) (fs : FS) (xfrm : String → String) :
    IsTrans Path (keyRelRev cfg fs xfrm) := by
  refine ⟨fun a b c hab hbc => ?_⟩
  unfold keyRelRev at *
  exact pyKeyLEb_trans cfg fs xfrm c b a hbc hab

/-- _is_hidden_path: hide names starting with "." unless -a. -/
def isHiddenPath (cfg : Config) (p : Path) : Bool :=
  !cfg.show_all && ((pathName p).data.head? == some '.')

/-- str.ljust: pad with spaces on the right up to the width. -/
def ljust (s : String) (w : Nat) : String :=
  s ++ String.mk (List.replicate (w - s.length) ' ')

/-- str.rjust: pad with spaces on the left up to the width. -/
def rjust (s : String) (w : Nat) : String :=
  String.mk (List.replicate (w - s.length) ' ') ++ s

/-- The ColumnInfo dataclass of src/pyls.py. -/
structure ColumnInfo where
  num_cols : Nat
  col_array : List Nat
  line_len : Nat := 0
  is_valid : Bool := true
deriving DecidableEq, Repr

/-- One update of _get_optimal_column_layout's inner loop: layout number col
(1-based, as in enumerate(col_layouts, 1)) absorbs the entry of index pIdx
whose printed length + 2 is realLength; n is len(path_strings), w the
terminal width. -/
def layoutStep (w n pIdx realLength col : Nat) (ci : ColumnInfo) : ColumnInfo :=
  if !ci.is_valid then ci
  else
    let idx := pIdx / ((n + col - 1) / col)
    let cur := ci.col_array.getD idx 0
    if realLength > cur then
      { ci with col_array := ci.col_array.set idx realLength
                line_len := ci.line_len + realLength - cur
                is_valid := decide (ci.line_len + realLength - cur < w) }
    else ci

/-- The initial col_layouts list: ColumnInfo(num_cols=i, col_array=[0]*i) for
i in range(1, max(1, w / 3)).  Note the Python range excludes its upper end,
so the largest candidate is max(1, w / 3) - 1, and the list is empty when
max(1, w / 3) = 1. -/
def initLayouts (w : Nat) : List ColumnInfo :=
  (List.range' 1 (max 1 (w / 3) - 1)).map
    (fun i => { num_cols := i, col_array := List.replicate i 0 })

/-- The col_layouts list after the outer loop of _get_optimal_column_layout
has walked every path string. -/
def finalLayouts (pathStrings : List String) (w : Nat) : List ColumnInfo :=
  pathStrings.enum.foldl
    (fun ls pe =>
      ls.mapIdx (fun i ci => layoutStep w pathStrings.length pe.1 (pe.2.length + 2) (i + 1) ci))
    (initLayouts w)

/-- _get_optimal_column_layout: valid_col starts as col_layouts[-1] and the
loop over reversed(col_layouts) picks the first valid layout.  The subscript
col_layouts[-1] raises IndexError when the candidate list is empty (terminal
width below 6); that exception is modelled as none. -/
def getOptimalColumnLayout (pathStrings : List String) (w : Nat) : Option ColumnInfo :=
  let ls := finalLayouts pathStrings w
  match ls.getLast? with
  | none => none
  | some dflt => some ((ls.reverse.find? (fun c => c.is_valid)).getD dflt)

/-- The inner while loop of _lines_in_short_format_many_per_line, collecting
one row's cells; it appends path_strings[file_index].ljust(col_array[col_idx])
and stops once file_index + num_rows walks past num_files.  The fuel argument
only makes the recursion structural; instantiated with num_files it never
runs out before the Python break condition fires. -/
def rowCellsAux (pathStrings : List String) (colArr : List Nat) (numRows numFiles : Nat) :
    Nat → Nat → Nat → List String
  | 0, _, _ => []
  | fuel + 1, colIdx, fileIdx =>
      let cell := ljust (pathStrings.getD fileIdx "") (colArr.getD colIdx 0)
      if fileIdx + numRows ≥ numFiles then [cell]
      else cell ::
        rowCellsAux pathStrings colArr numRows numFiles fuel (colIdx + 1) (fileIdx + numRows)

/-- _lines_in_short_format_many_per_line: num_rows = num_files // num_cols
plus one when the division has a remainder; every cell, the last of its row
included, is left-justified to its column's width and the cells of a row are
joined without separator. -/
def linesShortManyPerLine (pathStrings : List String) (w : Nat) : Option (List String) :=
  (getOptimalColumnLayout pathStrings w).map (fun layout =>
    let numFiles := pathStrings.length
    let numRows := numFiles / layout.num_cols + (if numFiles % layout.num_cols ≠ 0 then 1 else 0)
    (List.range numRows).map (fun rowIdx =>
      String.join (rowCellsAux pathStrings layout.col_array numRows numFiles numFiles 0 rowIdx)))

/-- _printable_path_name: "." for the listed directory itself, ".." when the
path equals base_path.parent (pathlib drops the last part), otherwise the
last component.  The synthesized path / ".." entry falls through to the last
branch, whose pathlib name is "..". -/
def printablePathName (base p : Path) : String :=
  if p = base then "."
  else if p = base.dropLast then ".."
  else pathName p

/-- _iter_single_dir_children: with -a and name order, yield "." and ".."
first; with -a and -S, append the directory itself and path / ".." to the
children before sorting, so the pseudo-entries sort with everything else
(path / ".." resolves to the parent directory's metadata at lstat time, so
its key reads fs.meta (path ++ [".."])).  The sorted children then pass the
hidden filter, which keeps everything when -a is on. -/
def iterSingleDirChildren (cfg : Config) (fs : FS) (xfrm : String → String) (path : Path) :
    List Path :=
  let children := childPaths fs path
  let pre : List Path :=
    if cfg.show_all && !cfg.sort_by_size then [path, path ++ [".."]] else []
  let pool : List Path :=
    if cfg.show_all && cfg.sort_by_size then children ++ [path, path ++ [".."]] else children
  pre ++ (pySortAsc cfg fs xfrm pool).filter (fun p => !isHiddenPath cfg p)

/-- _total_num_blocks: st_blocks summed over the paths, then divided by two
to convert the 512-byte units of lstat to the 1024-byte units of ls. -/
def totalNumBlocks (fs : FS) (paths : List Path) : Nat :=
  ((paths.map (fun p => (fs.meta p).st_blocks)).sum) / 2

/-- _single_row_data_in_list_format: the 7-tuple (filemode, number of links,
user, group, size in bytes, last modified, name); symlink names carry the
" -> target" suffix.  Mode, owner, group and mtime strings come resolved
from the metadata provider. -/
def singleRowData (fs : FS) (base p : Path) : List String :=
  let m := fs.meta p
  let name := printablePathName base p
  let shown := if m.is_symlink then name ++ " -> " ++ m.resolved_target else name
  [m.mode_string, toString m.nlink, m.owner, m.group, toString m.st_size,
    m.mtime_str, shown]

/-- The col_widths of _lines_of_single_dir_in_list_format: the maximum width
of each of the first six fields over all rows, then 0 for the name field. -/
def listColWidths (rows : List (List String)) : List Nat :=
  (List.range 6).map (fun i => (rows.map (fun r => (r.getD i "").length)).foldr max 0) ++ [0]

/-- The per-field alignment: filemode unpadded, links right-aligned, user and
group left-aligned, size right-aligned, mtime left-aligned, name unpadded. -/
def alignField : Nat → String → Nat → String
  | 0, s, _ => s
  | 1, s, w => rjust s w
  | 2, s, w => ljust s w
  | 3, s, w => ljust s w
  | 4, s, w => rjust s w
  | 5, s, w => ljust s w
  | _, s, _ => s

/-- One aligned long-format row, fields joined with single spaces. -/
def renderListRow (widths : List Nat) (row : List String) : String :=
  String.intercalate " " ((row.zip widths).enum.map (fun e => alignField e.1 e.2.1 e.2.2))

/-- _lines_of_single_dir_in_list_format: the "total {blocks}" line first,
then one aligned row per entry. -/
def linesListFormat (fs : FS) (base : Path) (paths : List Path) : List String :=
  let rows := paths.map (singleRowData fs base)
  ("total " ++ toString (totalNumBlocks fs paths)) ::
    rows.map (renderListRow (listColWidths rows))

/-- _lines_of_single_dir_content_in_short_format: one name per line unless
the column layout is enabled. -/
def linesShortFormat (cfg : Config) (base : Path) (paths : List Path) : Option (List String) :=
  let pathStrings := paths.map (printablePathName base)
  if !cfg.use_column_layout then some pathStrings
  else linesShortManyPerLine pathStrings cfg.terminal_width

/-- format_lines_single_dir: list the children, then render them in long or
short format. -/
def formatLinesSingleDir (cfg : Config) (fs : FS) (xfrm : String → String) (base : Path) :
    Option (List String) :=
  let paths := iterSingleDirChildren cfg fs xfrm base
  if cfg.list_format then some (linesListFormat fs base paths)
  else linesShortFormat cfg base paths

/-- _populate_stack_for_recursive_execution: nothing is pushed when the
popped directory is a symlink or hidden; otherwise its children, sorted by
_sort_key in reverse (so pops come ascending), are appended when they pass
the hidden filter, are directories and are not symlinks. -/
def pushList (cfg : Config) (fs : FS) (xfrm : String → String) (base : Path) : List Path :=
  if (fs.meta base).is_symlink then []
  else if isHiddenPath cfg base then []
  else (pySortDesc cfg fs xfrm (childPaths fs base)).filter
    (fun c => !isHiddenPath cfg c && (fs.meta c).is_dir && !(fs.meta c).is_symlink)

/-- The initial stack of ls_lines: the requested roots sorted by _sort_key in
reverse.  As in the Python list, the top of the stack is the END of the
list. -/
def initStack (cfg : Config) (fs : FS) (xfrm : String → String) : List Path :=
  pySortDesc cfg fs xfrm cfg.paths

/-- The sequence of directories popped by the while loop of ls_lines, in pop
order.  The fuel argument bounds the number of pops so the recursion is
structural; theorems quantify over all fuel or assume fuel at least the
total weight of the stack. -/
def lsVisit (cfg : Config) (fs : FS) (xfrm : String → String) :
    Nat → List Path → List Path
  | 0, _ => []
  | _ + 1, [] => []
  | fuel + 1, q :: qs =>
      let stack := q :: qs
      let p := stack.getLast (List.cons_ne_nil q qs)
      p :: lsVisit cfg fs xfrm fuel
        (stack.dropLast ++ (if cfg.recursive then pushList cfg fs xfrm p else []))

/-- Whether ls_lines prints per-directory headers: more than one requested
root, or recursion. -/
def listMultipleDirs (cfg : Config) : Bool :=
  decide (1 < cfg.paths.length) || cfg.recursive

/-- ls_lines: pop the top of the stack, emit the header when headers are on
(the yielded header string itself starts with a newline character for every
header after the first), emit the directory's lines, and in recursive mode
push its subdirectories.  A short-format layout crash (terminal width below
6 with column layout on) propagates as none. -/
def lsLinesAux (cfg : Config) (fs : FS) (xfrm : String → String) :
    Nat → List Path → Bool → Option (List String)
  | 0, _, _ => some []
  | _ + 1, [], _ => some []
  | fuel + 1, q :: qs, isFirst =>
      let stack := q :: qs
      let p := stack.getLast (List.cons_ne_nil q qs)
      let header : List String :=
        if listMultipleDirs cfg then
          [(if isFirst then "" else "\n") ++ pathStr p ++ ":"]
        else []
      match formatLinesSingleDir cfg fs xfrm p with
      | none => none
      | some body =>
          match lsLinesAux cfg fs xfrm fuel
              (stack.dropLast ++ (if cfg.recursive then pushList cfg fs xfrm p else []))
              (if listMultipleDirs cfg then false else isFirst) with
          | none => none
          | some tail => some (header ++ body ++ tail)

/-- The full ls_lines output for a run with the given fuel. -/
def lsLines (cfg : Config) (fs : FS) (xfrm : String → String) (fuel : Nat) :
    Option (List String) :=
  lsLinesAux cfg fs xfrm fuel (initStack cfg fs xfrm) true

/-- The header and body lines as a function of the visited-directory
sequence: directory number k gets a header exactly when headers are on, and
that header starts with a newline character exactly when k is not the first.
This is the specification shape that lsLinesAux is proved equal to. -/
def renderVisit (cfg : Config) (fs : FS) (xfrm : String → String) :
    List Path → Bool → Option (List String)
  | [], _ => some []
  | p :: rest, isFirst =>
      let header : List String :=
        if listMultipleDirs cfg then
          [(if isFirst then "" else "\n") ++ pathStr p ++ ":"]
        else []
      match formatLinesSingleDir cfg fs xfrm p with
      | none => none
      | some body =>
          match renderVisit cfg fs xfrm rest
              (if listMultipleDirs cfg then false else isFirst) with
          | none => none
          | some tail => some (header ++ body ++ tail)

/-- The claim-shaped BySize ordering: strictly larger size first, ties broken
by the ByName key (the collation of the full path string). -/
def bySizeOrd (fs : FS) (xfrm : String → String) (a b : Path) : Prop :=
  (fs.meta b).st_size < (fs.meta a).st_size ∨
    ((fs.meta a).st_size = (fs.meta b).st_size ∧
      pyStrLEb (nameKey xfrm a) (nameKey xfrm b) = true)

/-- Under -S the stable sort key comparison coincides with the claim-shaped
descending-size, name-tie-broken ordering. -/
theorem keyRel_imp_bySizeOrd (cfg : Config) (fs : FS) (xfrm : String → String)
    (hsz : cfg.sort_by_size = true) (a b : Path) (h : keyRel cfg fs xfrm a b) :
    bySizeOrd fs xfrm a b := by
  unfold keyRel pyKeyLEb at h
  rw [hsz] at h
  simp only [if_true, Bool.or_eq_true, Bool.and_eq_true, decide_eq_true_eq] at h
  unfold bySizeOrd
  rcases h with h | ⟨h1, h2⟩
  · exact Or.inl (by omega)
  · exact Or.inr ⟨by omega, h2⟩

/-- A configuration showing hidden entries, for the C5 witness run. -/
def cfg5 : Config := { show_all := true }

/-- A directory d with two children x and y, for the C5 witness run. -/
def fs5 : FS :=
  { children := fun p => if p = ["d"] then ["x", "y"] else []
    meta := fun _ => {} }

/-- The size-ordered configuration of the spec's tie-break example. -/
def cfg6 : Config := { sort_by_size := true }

/-- The directory of the spec's size example: a.txt of 2 bytes, b.txt of
3 bytes, c.txt of 1 byte. -/
def fs6 : FS :=
  { children := fun p => if p = ["d"] then ["a.txt", "b.txt", "c.txt"] else []
    meta := fun p =>
      if p = ["d", "a.txt"] then { st_size := 2 }
      else if p = ["d", "b.txt"] then { st_size := 3 }
      else if p = ["d", "c.txt"] then { st_size := 1 }
      else {} }

/-- Thirteen names of display length 5, the input of the spec's column
packing example. -/
def thirteenNames : List String :=
  ["f0001", "f0002", "f0003", "f0004", "f0005", "f0006", "f0007",
   "f0008", "f0009", "f0010", "f0011", "f0012", "f0013"]

/-- The stack machine of ls_lines produces exactly the per-visited-directory
rendering: pop order is lsVisit, and headers with their leading-newline
discipline follow the position of the directory in that pop order. -/
theorem lsLinesAux_eq_renderVisit (cfg : Config) (fs : FS) (xfrm : String → String) :
    ∀ (fuel : Nat) (stack : List Path) (isFirst : Bool),
      lsLinesAux cfg fs xfrm fuel stack isFirst =
        renderVisit cfg fs xfrm (lsVisit cfg fs xfrm fuel stack) isFirst
  | 0, stack, _ => by cases stack <;> rfl
  | _ + 1, [], _ => rfl
  | fuel + 1, q :: qs, isFirst => by
      rw [lsLinesAux, lsVisit, renderVisit]
      rw [lsLinesAux_eq_renderVisit cfg fs xfrm fuel]

/-- The two-root configuration of the header example: pyls foo bar. -/
def cfg7 : Config := { paths := [["foo"], ["bar"]] }

/-- Two empty directories foo and bar. -/
def fs7 : FS := { children := fun _ => [], meta := fun _ => {} }

inductive FTree where
  | node (meta : Meta) (children : List (String × FTree))

def FTree.meta : FTree → Meta
  | node m _ => m

def FTree.children : FTree → List (String × FTree)
  | node _ cs => cs

def lookupT : FTree → Path → Option FTree
  | t, [] => some t
  | t, n :: rest =>
      match t.children.find? (fun c => c.1 == n) with
      | some c => lookupT c.2 rest
      | none => none

def toFS (t : FTree) : FS :=
  { children := fun p => ((lookupT t p).map (fun s => s.children.map (fun c => c.1))).getD []
    meta := fun p => ((lookupT t p).map FTree.meta).getD {} }

mutual
/-- The number of nodes of the tree (weight of this node plus the weights of
the child subtrees); it bounds the number of pops a traversal rooted here
can make. -/
def treeWeight : FTree → Nat
  | .node _ cs => 1 + treeWeightList cs

/-- The summed weight of a child list. -/
def treeWeightList : List (String × FTree) → Nat
  | [] => 0
  | c :: rest => treeWeight c.2 + treeWeightList rest
end

def pweight (t : FTree) (p : Path) : Nat :=
  match lookupT t p with
  | none => 1
  | some s => treeWeight s

def stackWeight (t : FTree) (stack : List Path) : Nat :=
  (stack.map (pweight t)).sum

mutual
/-- Well-formedness of a directory tree: at every node the child names are
distinct (as on a real filesystem). -/
def wfTree : FTree → Bool
  | .node _ cs => decide ((cs.map (fun c => c.1)).Nodup) && wfTreeList cs

/-- Well-formedness of every subtree of a child list. -/
def wfTreeList : List (String × FTree) → Bool
  | [] => true
  | c :: rest => wfTree c.2 && wfTreeList rest
end

theorem treeWeightList_eq_sum (cs : List (String × FTree)) :
    treeWeightList cs = (cs.map (fun e => treeWeight e.2)).sum := by
  induction cs with
  | nil => rfl
  | cons c rest ih => rw [treeWeightList, ih, List.map_cons, List.sum_cons]

theorem treeWeight_node (m : Meta) (cs : List (String × FTree)) :
    treeWeight (.node m cs) = 1 + (cs.map (fun e => treeWeight e.2)).sum := by
  rw [treeWeight, treeWeightList_eq_sum]

theorem treeWeight_pos (t : FTree) : 1 ≤ treeWeight t := by
  cases t with
  | node m cs => rw [treeWeight_node]; omega

theorem pweight_pos (t : FTree) (p : Path) : 1 ≤ pweight t p := by
  unfold pweight
  cases h : lookupT t p with
  | none => exact le_refl 1
  | some s => exact treeWeight_pos s

theorem treeWeight_child {m : Meta} {cs : List (String × FTree)} {e : String × FTree}
    (he : e ∈ cs) : treeWeight e.2 < treeWeight (.node m cs) := by
  rw [treeWeight_node]
  have h1 : treeWeight e.2 ∈ cs.map (fun e => treeWeight e.2) := List.mem_map_of_mem _ he
  have h2 := List.single_le_sum (l := cs.map (fun e => treeWeight e.2)) (fun x _ => Nat.zero_le x)
    _ h1
  omega

theorem lookupT_append (t : FTree) (p : Path) (n : String) :
    lookupT t (p ++ [n]) =
      (lookupT t p).bind (fun s => (s.children.find? (fun c => c.1 == n)).map (fun c => c.2)) := by
  induction p generalizing t with
  | nil =>
      rw [List.nil_append]
      cases h : t.children.find? (fun c => c.1 == n) with
      | none => simp [lookupT, h]
      | some c => simp [lookupT, h]
  | cons m rest ih =>
      rw [List.cons_append]
      cases h : t.children.find? (fun c => c.1 == m) with
      | none => simp [lookupT, h]
      | some c => simp [lookupT, h, ih c.2]

theorem wfTreeList_eq_all (cs : List (String × FTree)) :
    wfTreeList cs = true ↔ ∀ e ∈ cs, wfTree e.2 = true := by
  induction cs with
  | nil => simp [wfTreeList]
  | cons c rest ih => rw [wfTreeList]; simp [ih]

theorem wfTree_node (m : Meta) (cs : List (String × FTree)) :
    wfTree (.node m cs) = true ↔
      (cs.map (fun c => c.1)).Nodup ∧ ∀ e ∈ cs, wfTree e.2 = true := by
  rw [wfTree]
  simp [wfTreeList_eq_all]

theorem wfTree_lookup (t : FTree) (p : Path) (s : FTree) (hwf : wfTree t = true)
    (h : lookupT t p = some s) : wfTree s = true := by
  induction p generalizing t with
  | nil =>
      rw [lookupT] at h
      exact (Option.some.inj h) ▸ hwf
  | cons m rest ih =>
      rw [lookupT] at h
      cases hf : t.children.find? (fun c => c.1 == m) with
      | none => rw [hf] at h; exact absurd h (by simp)
      | some c =>
          rw [hf] at h
          have hc : c ∈ t.children := List.mem_of_find?_eq_some hf
          cases t with
          | node m0 cs =>
              have hwf2 := ((wfTree_node m0 cs).mp hwf).2 c hc
              exact ih c.2 hwf2 h

theorem find?_eq_of_nodup (cs : List (String × FTree)) (e : String × FTree)
    (hnd : (cs.map (fun c => c.1)).Nodup) (he : e ∈ cs) :
    cs.find? (fun c => c.1 == e.1) = some e := by
  induction cs with
  | nil => exact absurd he (by simp)
  | cons c0 rest ih =>
      rcases List.mem_cons.mp he with he0 | het
      · rw [← he0]
        rw [List.find?_cons_of_pos]
        simp
      · have hne : ¬ (c0.1 == e.1) = true := by
          simp only [List.map_cons, List.nodup_cons] at hnd
          intro hb
          apply hnd.1
          rw [beq_iff_eq] at hb
          rw [hb]
          exact List.mem_map_of_mem _ het
        rw [List.find?_cons_of_neg _ (by simpa using hne)]
        exact ih (by simpa using (List.nodup_cons.mp (by simpa using hnd)).2) het

theorem toFS_children (t : FTree) (p : Path) :
    (toFS t).children p = ((lookupT t p).map (fun s => s.children.map (fun c => c.1))).getD [] :=
  rfl

theorem toFS_meta (t : FTree) (p : Path) :
    (toFS t).meta p = ((lookupT t p).map FTree.meta).getD {} :=
  rfl

/-- Every path pushed by the recursive step strictly decreases the subtree
weight: it is a child path of the popped directory. -/
theorem pweight_push (cfg : Config) (xfrm : String → String) (t : FTree) (p q : Path)
    (hq : q ∈ pushList cfg (toFS t) xfrm p) : pweight t q < pweight t p := by
  unfold pushList at hq
  split_ifs at hq with h1 h2
  · exact absurd hq (by simp)
  · exact absurd hq (by simp)
  · have hq2 : q ∈ pySortDesc cfg (toFS t) xfrm (childPaths (toFS t) p) :=
      (List.mem_filter.mp hq).1
    have hq3 : q ∈ childPaths (toFS t) p := by
      unfold pySortDesc at hq2
      exact (List.mem_insertionSort _).mp hq2
    unfold childPaths at hq3
    rcases List.mem_map.mp hq3 with ⟨n, hn, rfl⟩
    rw [toFS_children] at hn
    cases hl : lookupT t p with
    | none => rw [hl] at hn; exact absurd hn (by simp)
    | some s =>
        rw [hl] at hn
        simp only [Option.map_some', Option.getD_some] at hn
        rcases List.mem_map.mp hn with ⟨e, he, hne⟩
        have hfind : (s.children.find? (fun c => c.1 == n)).isSome := by
          rw [List.find?_isSome]
          exact ⟨e, he, by simp [hne]⟩
        rcases Option.isSome_iff_exists.mp hfind with ⟨c0, hc0⟩
        have hlq : lookupT t (p ++ [n]) = some c0.2 := by
          rw [lookupT_append, hl]
          simp [hc0]
        have hc0mem : c0 ∈ s.children := List.mem_of_find?_eq_some hc0
        unfold pweight
        rw [hlq, hl]
        cases s with
        | node m0 cs => exact treeWeight_child hc0mem

/-- The depth-first pre-order specification of the traversal: the directory,
then the subtrees of its pushed children in pop order (ascending key). -/
def dfsP (cfg : Config) (xfrm : String → String) (t : FTree) (p : Path) : List Path :=
  p :: (((if cfg.recursive then pushList cfg (toFS t) xfrm p else []).reverse).attach.flatMap
    (fun q => dfsP cfg xfrm t q.1))
termination_by pweight t p
decreasing_by
  rcases q with ⟨q, hq⟩
  simp only []
  have hq2 : q ∈ (if cfg.recursive then pushList cfg (toFS t) xfrm p else []) :=
    List.mem_reverse.mp hq
  split_ifs at hq2 with hrec
  · exact pweight_push cfg xfrm t p q hq2
  · exact absurd hq2 (by simp)

theorem lsVisit_concat (cfg : Config) (fs : FS) (xfrm : String → String) (fuel : Nat)
    (s : List Path) (p : Path) :
    lsVisit cfg fs xfrm (fuel + 1) (s ++ [p]) =
      p :: lsVisit cfg fs xfrm fuel
        (s ++ (if cfg.recursive then pushList cfg fs xfrm p else [])) := by
  cases s with
  | nil =>
      rw [List.nil_append, lsVisit]
      simp
  | cons a s2 =>
      rw [List.cons_append, lsVisit]
      simp
      congr 1
      rw [← List.cons_append, List.dropLast_concat, List.cons_append]

theorem stackWeight_append (t : FTree) (l1 l2 : List Path) :
    stackWeight t (l1 ++ l2) = stackWeight t l1 + stackWeight t l2 := by
  simp [stackWeight]

theorem stackWeight_perm (t : FTree) {l1 l2 : List Path} (h : l1.Perm l2) :
    stackWeight t l1 = stackWeight t l2 :=
  (h.map (pweight t)).sum_eq

theorem stackWeight_sublist (t : FTree) {l1 l2 : List Path} (h : l1.Sublist l2) :
    stackWeight t l1 ≤ stackWeight t l2 :=
  List.Sublist.sum_le_sum (h.map (pweight t)) (fun _ _ => Nat.zero_le _)

theorem stackWeight_children (t : FTree) (p : Path) (s : FTree) (hl : lookupT t p = some s)
    (hnd : (s.children.map (fun c => c.1)).Nodup) :
    stackWeight t (childPaths (toFS t) p) = (s.children.map (fun e => treeWeight e.2)).sum := by
  unfold stackWeight childPaths
  rw [toFS_children, hl]
  simp only [Option.map_some', Option.getD_some]
  rw [List.map_map, List.map_map]
  apply congrArg List.sum
  apply List.map_congr_left
  intro e he
  show pweight t (p ++ [e.1]) = treeWeight e.2
  unfold pweight
  rw [lookupT_append, hl]
  simp [find?_eq_of_nodup s.children e hnd he]

theorem stackWeight_push_succ_le (cfg : Config) (xfrm : String → String) (t : FTree)
    (p : Path) (hwf : wfTree t = true) :
    stackWeight t (if cfg.recursive then pushList cfg (toFS t) xfrm p else []) + 1 ≤
      pweight t p := by
  have hpos := pweight_pos t p
  split_ifs with hrec
  · have hsub : stackWeight t (pushList cfg (toFS t) xfrm p) ≤
        stackWeight t (childPaths (toFS t) p) := by
      unfold pushList
      split_ifs with h1 h2
      · simp [stackWeight]
      · simp [stackWeight]
      · refine le_trans (stackWeight_sublist t (List.filter_sublist _)) (le_of_eq ?_)
        exact stackWeight_perm t (List.perm_insertionSort _ _)
    cases hl : lookupT t p with
    | none =>
        have hcp : childPaths (toFS t) p = [] := by
          unfold childPaths
          rw [toFS_children, hl]
          rfl
        rw [hcp] at hsub
        have h0 : stackWeight t ([] : List Path) = 0 := rfl
        omega
    | some s =>
        have hwfs := wfTree_lookup t p s hwf hl
        have hnd : (s.children.map (fun c => c.1)).Nodup := by
          cases s with
          | node m0 cs => exact ((wfTree_node m0 cs).mp hwfs).1
        rw [stackWeight_children t p s hl hnd] at hsub
        have hps : pweight t p = treeWeight s := by unfold pweight; rw [hl]
        cases s with
        | node m0 cs =>
            rw [treeWeight_node] at hps
            simp only [FTree.children] at hsub
            omega
  · have h0 : stackWeight t ([] : List Path) = 0 := rfl
    omega

theorem attach_flatMap {α β : Type} (l : List α) (f : α → List β) :
    l.attach.flatMap (fun x => f x.1) = l.flatMap f := by
  rw [List.flatMap, List.flatMap, ← List.attach_map_coe l f]

theorem dfsP_unfold (cfg : Config) (xfrm : String → String) (t : FTree) (p : Path) :
    dfsP cfg xfrm t p = p ::
      ((if cfg.recursive then pushList cfg (toFS t) xfrm p else []).reverse.flatMap
        (dfsP cfg xfrm t)) := by
  rw [dfsP]
  rw [attach_flatMap]

theorem lsVisit_eq_dfs (cfg : Config) (xfrm : String → String) (t : FTree)
    (hwf : wfTree t = true) :
    ∀ (fuel : Nat) (stack : List Path), stackWeight t stack ≤ fuel →
      lsVisit cfg (toFS t) xfrm fuel stack = stack.reverse.flatMap (dfsP cfg xfrm t)
  | 0, stack, h => by
      cases stack with
      | nil => rfl
      | cons q qs =>
          exfalso
          have hq := pweight_pos t q
          simp [stackWeight] at h
          omega
  | fuel + 1, stack, h => by
      rcases List.eq_nil_or_concat' stack with rfl | ⟨s, p, rfl⟩
      · rfl
      · rw [lsVisit_concat]
        have hb := stackWeight_push_succ_le cfg xfrm t p hwf
        have h1 : stackWeight t [p] = pweight t p := by simp [stackWeight]
        have hw : stackWeight t
            (s ++ (if cfg.recursive then pushList cfg (toFS t) xfrm p else [])) ≤ fuel := by
          rw [stackWeight_append] at h
          rw [h1] at h
          rw [stackWeight_append]
          omega
        rw [lsVisit_eq_dfs cfg xfrm t hwf fuel _ hw]
        rw [List.reverse_append, List.reverse_append, List.flatMap_append, List.flatMap_append]
        simp only [List.reverse_cons, List.reverse_nil, List.nil_append, List.flatMap_cons,
          List.flatMap_nil, List.append_nil]
        rw [dfsP_unfold, List.cons_append]

theorem pySortDesc_reverse_sorted (cfg : Config) (fs : FS) (xfrm : String → String)
    (l : List Path) : (pySortDesc cfg fs xfrm l).reverse.Sorted (keyRel cfg fs xfrm) := by
  have h1 : (pySortDesc cfg fs xfrm l).Sorted (keyRelRev cfg fs xfrm) :=
    List.sorted_insertionSort _ _
  exact (List.pairwise_reverse).mpr h1

theorem pushList_reverse_sorted (cfg : Config) (fs : FS) (xfrm : String → String) (p : Path) :
    (pushList cfg fs xfrm p).reverse.Sorted (keyRel cfg fs xfrm) := by
  unfold pushList
  split_ifs with h1 h2
  · simp
  · simp
  · apply (List.pairwise_reverse).mpr
    have h1 : (pySortDesc cfg fs xfrm (childPaths fs p)).Sorted (keyRelRev cfg fs xfrm) :=
      List.sorted_insertionSort _ _
    exact List.Pairwise.sublist (List.filter_sublist _) h1

theorem mem_pushList_childPaths (cfg : Config) (fs : FS) (xfrm : String → String)
    (p c : Path) (hc : c ∈ pushList cfg fs xfrm p) : c ∈ childPaths fs p := by
  unfold pushList at hc
  split_ifs at hc with h1 h2
  · exact absurd hc (by simp)
  · exact absurd hc (by simp)
  · have h3 := (List.mem_filter.mp hc).1
    unfold pySortDesc at h3
    exact (List.mem_insertionSort _).mp h3

theorem pushList_props (cfg : Config) (fs : FS) (xfrm : String → String) (p q : Path)
    (hq : q ∈ pushList cfg fs xfrm p) :
    (fs.meta q).is_symlink = false ∧ (fs.meta q).is_dir = true ∧
      isHiddenPath cfg q = false := by
  unfold pushList at hq
  split_ifs at hq with h1 h2
  · exact absurd hq (by simp)
  · exact absurd hq (by simp)
  · have h3 := List.of_mem_filter hq
    simp only [Bool.and_eq_true, Bool.not_eq_true'] at h3
    exact ⟨h3.2, h3.1.2, h3.1.1⟩

theorem mem_pushIte_shape (cfg : Config) (xfrm : String → String) (t : FTree) (p c : Path)
    (hc : c ∈ (if cfg.recursive then pushList cfg (toFS t) xfrm p else [])) :
    (∃ n, c = p ++ [n]) ∧ pweight t c < pweight t p := by
  split_ifs at hc with hrec
  · refine ⟨?_, pweight_push cfg xfrm t p c hc⟩
    have h3 := mem_pushList_childPaths cfg (toFS t) xfrm p c hc
    unfold childPaths at h3
    rcases List.mem_map.mp h3 with ⟨n, _, rfl⟩
    exact ⟨n, rfl⟩
  · exact absurd hc (by simp)

theorem dfsP_extends (cfg : Config) (xfrm : String → String) (t : FTree) (p : Path) :
    ∀ q ∈ dfsP cfg xfrm t p, ∃ s0, q = p ++ s0 := by
  rw [dfsP_unfold]
  intro q hq
  rcases List.mem_cons.mp hq with h | h
  · exact ⟨[], by simp [h]⟩
  · rcases List.mem_flatMap.mp h with ⟨c, hcmem, hq2⟩
    have hc2 : c ∈ (if cfg.recursive then pushList cfg (toFS t) xfrm p else []) :=
      List.mem_reverse.mp hcmem
    rcases mem_pushIte_shape cfg xfrm t p c hc2 with ⟨⟨n, rfl⟩, hlt⟩
    rcases dfsP_extends cfg xfrm t (p ++ [n]) q hq2 with ⟨s0, rfl⟩
    exact ⟨n :: s0, by simp⟩
termination_by pweight t p

theorem pushList_nodup (cfg : Config) (xfrm : String → String) (t : FTree) (p : Path)
    (hwf : wfTree t = true) : (pushList cfg (toFS t) xfrm p).Nodup := by
  have hcp : (childPaths (toFS t) p).Nodup := by
    unfold childPaths
    apply List.Nodup.map
    · intro a b hab
      simpa using hab
    · rw [toFS_children]
      cases hl : lookupT t p with
      | none => simp
      | some s =>
          simp only [Option.map_some', Option.getD_some]
          have hwfs := wfTree_lookup t p s hwf hl
          cases s with
          | node m0 cs => exact ((wfTree_node m0 cs).mp hwfs).1
  unfold pushList
  split_ifs with h1 h2
  · simp
  · simp
  · have hnd2 : (pySortDesc cfg (toFS t) xfrm (childPaths (toFS t) p)).Nodup :=
      (List.perm_insertionSort _ _).nodup_iff.mpr hcp
    exact hnd2.filter _

theorem dfsP_nodup (cfg : Config) (xfrm : String → String) (t : FTree)
    (hwf : wfTree t = true) (p : Path) : (dfsP cfg xfrm t p).Nodup := by
  rw [dfsP_unfold]
  apply List.nodup_cons.mpr
  constructor
  · intro hmem
    rcases List.mem_flatMap.mp hmem with ⟨c, hcmem, hq2⟩
    rcases mem_pushIte_shape cfg xfrm t p c (List.mem_reverse.mp hcmem) with ⟨⟨n, rfl⟩, _⟩
    rcases dfsP_extends cfg xfrm t (p ++ [n]) p hq2 with ⟨s0, hs0⟩
    have hlen := congrArg List.length hs0
    simp at hlen
  · apply List.nodup_flatMap.mpr
    constructor
    · intro c hcmem
      exact dfsP_nodup cfg xfrm t hwf c
    · have hnd : (if cfg.recursive then pushList cfg (toFS t) xfrm p else []).reverse.Nodup := by
        rw [List.nodup_reverse]
        split_ifs with hrec
        · exact pushList_nodup cfg xfrm t p hwf
        · simp
      apply List.Pairwise.imp_of_mem ?_ hnd
      intro c1 c2 hm1 hm2 hne
      rcases mem_pushIte_shape cfg xfrm t p c1 (List.mem_reverse.mp hm1) with ⟨⟨n1, rfl⟩, _⟩
      rcases mem_pushIte_shape cfg xfrm t p c2 (List.mem_reverse.mp hm2) with ⟨⟨n2, rfl⟩, _⟩
      intro q hq1 hq2
      rcases dfsP_extends cfg xfrm t (p ++ [n1]) q hq1 with ⟨s1, he1⟩
      rcases dfsP_extends cfg xfrm t (p ++ [n2]) q hq2 with ⟨s2, he2⟩
      rw [he1] at he2
      simp only [List.append_assoc, List.append_cancel_left_eq] at he2
      have : n1 = n2 := by
        have := congrArg (fun l => List.head? l) he2
        simpa using this
      exact hne (by rw [this])
termination_by pweight t p
decreasing_by
  exact (mem_pushIte_shape cfg xfrm t p c (List.mem_reverse.mp hcmem)).2

/-- The prefix-freedom of two root paths: neither extends the other (equal
roots extend each other by the empty suffix, so this also rules out
duplicates). -/
def rootsIndependent (a b : Path) : Prop :=
  (∀ s : List String, b ≠ a ++ s) ∧ (∀ s : List String, a ≠ b ++ s)

theorem lsVisit_nodup (cfg : Config) (xfrm : String → String) (t : FTree) (fuel : Nat)
    (roots : List Path) (hwf : wfTree t = true)
    (hpf : roots.Pairwise rootsIndependent)
    (hfuel : stackWeight t (pySortDesc cfg (toFS t) xfrm roots) ≤ fuel) :
    (lsVisit cfg (toFS t) xfrm fuel (pySortDesc cfg (toFS t) xfrm roots)).Nodup := by
  rw [lsVisit_eq_dfs cfg xfrm t hwf fuel _ hfuel]
  apply List.nodup_flatMap.mpr
  constructor
  · intro x _
    exact dfsP_nodup cfg xfrm t hwf x
  · have hsymm : Symmetric rootsIndependent := by
      intro a b hab
      exact ⟨hab.2, hab.1⟩
    have hperm : roots.Perm (pySortDesc cfg (toFS t) xfrm roots).reverse := by
      have h1 : (pySortDesc cfg (toFS t) xfrm roots).Perm roots :=
        List.perm_insertionSort _ _
      exact (h1.symm.trans (List.reverse_perm _).symm)
    have hpf2 := (hperm.pairwise_iff (fun hab => hsymm hab)).mp hpf
    apply List.Pairwise.imp ?_ hpf2
    intro a b hab
    intro q hqa hqb
    rcases dfsP_extends cfg xfrm t a q hqa with ⟨s1, he1⟩
    rcases dfsP_extends cfg xfrm t b q hqb with ⟨s2, he2⟩
    rw [he1] at he2
    rcases List.append_eq_append_iff.mp he2 with ⟨e, hbe, _⟩ | ⟨e, hae, _⟩
    · exact hab.1 e hbe
    · exact hab.2 e hae

/-- The two-root size-ordered configuration for the C4 counterexample:
pyls -S a b with a of size 1 and b of size 2. -/
def cfg4 : Config := { sort_by_size := true, paths := [["a"], ["b"]] }

/-- Roots a (1 byte) and b (2 bytes), childless. -/
def fs4 : FS :=
  { children := fun _ => []
    meta := fun p => if p = ["a"] then { st_size := 1 }
      else if p = ["b"] then { st_size := 2 } else {} }

/-- A recursive configuration with the single root path []. -/
def cfg4w : Config := { recursive := true }

/-- A root with subdirectories a (containing c) and b, for the C4 witness. -/
def t4w : FTree :=
  .node {}
    [("a", .node { is_dir := true } [("c", .node { is_dir := true } [])]),
     ("b", .node { is_dir := true } [])]

/-- The duplicate-roots configuration of the C8 counterexample: pyls a a. -/
def cfg8 : Config := { paths := [["a"], ["a"]] }

/-- A world of childless directories. -/
def fs8 : FS := { children := fun _ => [], meta := fun _ => {} }

/-- A recursive two-root configuration for the C8 witness. -/
def cfg8w : Config := { recursive := true, paths := [["r1"], ["r2"]] }

/-- A tree containing the two root directories r1 and r2. -/
def t8w : FTree :=
  .node {} [("r1", .node { is_dir := true } []), ("r2", .node { is_dir := true } [])]

theorem sorted_eq_of_perm_of_antisymmOn {α : Type} (r : α → α → Prop) (l1 l2 : List α)
    (hp : l1.Perm l2) (hs1 : l1.Sorted r) (hs2 : l2.Sorted r)
    (hanti : ∀ a ∈ l1, ∀ b ∈ l1, r a b → r b a → a = b) : l1 = l2 := by
  induction l1 generalizing l2 with
  | nil => exact (hp.nil_eq).symm.symm
  | cons a t1 ih =>
      cases l2 with
      | nil => exact absurd hp.symm (by simp)
      | cons b t2 =>
          by_cases hab : a = b
          · subst hab
            have ht : t1.Perm t2 := hp.cons_inv
            have he : t1 = t2 := by
              apply ih t2 ht hs1.of_cons hs2.of_cons
              intro x hx y hy
              exact hanti x (List.mem_cons_of_mem a hx) y (List.mem_cons_of_mem a hy)
            rw [he]
          · have hbmem : b ∈ a :: t1 := hp.mem_iff.mpr (List.mem_cons_self b t2)
            have hamem : a ∈ b :: t2 := hp.mem_iff.mp (List.mem_cons_self a t1)
            have hb1 : b ∈ t1 := by
              rcases List.mem_cons.mp hbmem with h | h
              · exact absurd h.symm hab
              · exact h
            have ha2 : a ∈ t2 := by
              rcases List.mem_cons.mp hamem with h | h
              · exact absurd h hab
              · exact h
            have hr1 : r a b := List.rel_of_sorted_cons hs1 b hb1
            have hr2 : r b a := List.rel_of_sorted_cons hs2 a ha2
            exact absurd
              (hanti a (List.mem_cons_self a t1) b (List.mem_cons_of_mem a hb1) hr1 hr2) hab

theorem insertionSort_eq_of_perm {α : Type} (r : α → α → Prop) [DecidableRel r]
    [IsTotal α r] [IsTrans α r] (l1 l2 : List α) (hp : l1.Perm l2)
    (hanti : ∀ a ∈ l1, ∀ b ∈ l1, r a b → r b a → a = b) :
    List.insertionSort r l1 = List.insertionSort r l2 := by
  apply sorted_eq_of_perm_of_antisymmOn r _ _
    ((List.perm_insertionSort r l1).trans (hp.trans (List.perm_insertionSort r l2).symm))
    (List.sorted_insertionSort r l1) (List.sorted_insertionSort r l2)
  intro a ha b hb
  exact hanti a ((List.mem_insertionSort _).mp ha) b ((List.mem_insertionSort _).mp hb)

theorem keyRel_antisymm (cfg : Config) (fs : FS) (xfrm : String → String) (a b : Path)
    (hinj : xfrm (pathStr a) = xfrm (pathStr b) → a = b)
    (h1 : keyRel cfg fs xfrm a b) (h2 : keyRel cfg fs xfrm b a) : a = b := by
  unfold keyRel pyKeyLEb at h1 h2
  have hname : pyStrLEb (nameKey xfrm a) (nameKey xfrm b) = true →
      pyStrLEb (nameKey xfrm b) (nameKey xfrm a) = true → a = b := by
    intro g1 g2
    exact hinj (pyStrLEb_antisymm _ _ g1 g2)
  cases hs : cfg.sort_by_size <;> rw [hs] at h1 h2 <;>
    simp only [if_true, if_false, Bool.false_eq_true, Bool.or_eq_true, Bool.and_eq_true,
      decide_eq_true_eq] at h1 h2
  · exact hname h1 h2
  · rcases h1 with h1 | ⟨h1e, h1s⟩ <;> rcases h2 with h2 | ⟨h2e, h2s⟩
    · omega
    · omega
    · omega
    · exact hname h1s h2s

theorem keyRelRev_antisymm (cfg : Config) (fs : FS) (xfrm : String → String) (a b : Path)
    (hinj : xfrm (pathStr a) = xfrm (pathStr b) → a = b)
    (h1 : keyRelRev cfg fs xfrm a b) (h2 : keyRelRev cfg fs xfrm b a) : a = b :=
  keyRel_antisymm cfg fs xfrm a b hinj h2 h1

theorem c10_sortAsc_eq (cfg : Config) (xfrm : String → String)
    (ch1 ch2 : Path → List String) (m : Path → Meta) (l1 l2 : List Path) (hp : l1.Perm l2)
    (hin : ∀ a ∈ l1, ∀ b ∈ l1, xfrm (pathStr a) = xfrm (pathStr b) → a = b) :
    pySortAsc cfg ⟨ch1, m⟩ xfrm l1 = pySortAsc cfg ⟨ch2, m⟩ xfrm l2 := by
  have h1 : pySortAsc cfg ⟨ch1, m⟩ xfrm l1 = pySortAsc cfg ⟨ch1, m⟩ xfrm l2 := by
    unfold pySortAsc
    apply insertionSort_eq_of_perm _ _ _ hp
    intro a ha b hb hr1 hr2
    exact keyRel_antisymm cfg ⟨ch1, m⟩ xfrm a b (hin a ha b hb) hr1 hr2
  exact h1.trans rfl

theorem c10_sortDesc_eq (cfg : Config) (xfrm : String → String)
    (ch1 ch2 : Path → List String) (m : Path → Meta) (l1 l2 : List Path) (hp : l1.Perm l2)
    (hin : ∀ a ∈ l1, ∀ b ∈ l1, xfrm (pathStr a) = xfrm (pathStr b) → a = b) :
    pySortDesc cfg ⟨ch1, m⟩ xfrm l1 = pySortDesc cfg ⟨ch2, m⟩ xfrm l2 := by
  have h1 : pySortDesc cfg ⟨ch1, m⟩ xfrm l1 = pySortDesc cfg ⟨ch1, m⟩ xfrm l2 := by
    unfold pySortDesc
    apply insertionSort_eq_of_perm _ _ _ hp
    intro a ha b hb hr1 hr2
    exact keyRelRev_antisymm cfg ⟨ch1, m⟩ xfrm a b (hin a ha b hb) hr1 hr2
  exact h1.trans rfl

theorem c10_iter_eq (cfg : Config) (xfrm : String → String)
    (ch1 ch2 : Path → List String) (m : Path → Meta)
    (hch : ∀ p, (ch1 p).Perm (ch2 p))
    (hinj : ∀ p : Path, ∀ a ∈ (ch1 p).map (fun n => p ++ [n]) ++ [p, p ++ [".."]],
      ∀ b ∈ (ch1 p).map (fun n => p ++ [n]) ++ [p, p ++ [".."]],
      xfrm (pathStr a) = xfrm (pathStr b) → a = b)
    (p : Path) :
    iterSingleDirChildren cfg ⟨ch1, m⟩ xfrm p = iterSingleDirChildren cfg ⟨ch2, m⟩ xfrm p := by
  have hcp : (childPaths ⟨ch1, m⟩ p).Perm (childPaths ⟨ch2, m⟩ p) := (hch p).map _
  have hplain : pySortAsc cfg ⟨ch1, m⟩ xfrm (childPaths ⟨ch1, m⟩ p) =
      pySortAsc cfg ⟨ch2, m⟩ xfrm (childPaths ⟨ch2, m⟩ p) := by
    apply c10_sortAsc_eq cfg xfrm ch1 ch2 m _ _ hcp
    intro a ha b hb
    exact hinj p a (List.mem_append_left _ ha) b (List.mem_append_left _ hb)
  have hpool : pySortAsc cfg ⟨ch1, m⟩ xfrm (childPaths ⟨ch1, m⟩ p ++ [p, p ++ [".."]]) =
      pySortAsc cfg ⟨ch2, m⟩ xfrm (childPaths ⟨ch2, m⟩ p ++ [p, p ++ [".."]]) := by
    apply c10_sortAsc_eq cfg xfrm ch1 ch2 m _ _ (hcp.append_right _)
    intro a ha b hb
    exact hinj p a ha b hb
  cases hsa : cfg.show_all <;> cases hss : cfg.sort_by_size <;>
    simp only [iterSingleDirChildren, hsa, hss, Bool.and_true, Bool.and_false, Bool.true_and,
      Bool.false_and, Bool.not_true, Bool.not_false, Bool.false_eq_true, eq_self_iff_true,
      if_true, if_false, List.nil_append] <;>
    first
    | rw [hplain]
    | rw [hpool]

theorem c10_push_eq (cfg : Config) (xfrm : String → String)
    (ch1 ch2 : Path → List String) (m : Path → Meta)
    (hch : ∀ p, (ch1 p).Perm (ch2 p))
    (hinj : ∀ p : Path, ∀ a ∈ (ch1 p).map (fun n => p ++ [n]) ++ [p, p ++ [".."]],
      ∀ b ∈ (ch1 p).map (fun n => p ++ [n]) ++ [p, p ++ [".."]],
      xfrm (pathStr a) = xfrm (pathStr b) → a = b)
    (p : Path) :
    pushList cfg ⟨ch1, m⟩ xfrm p = pushList cfg ⟨ch2, m⟩ xfrm p := by
  have hs : pySortDesc cfg ⟨ch1, m⟩ xfrm (childPaths ⟨ch1, m⟩ p) =
      pySortDesc cfg ⟨ch2, m⟩ xfrm (childPaths ⟨ch2, m⟩ p) := by
    apply c10_sortDesc_eq cfg xfrm ch1 ch2 m _ _ ((hch p).map _)
    intro a ha b hb
    exact hinj p a (List.mem_append_left _ ha) b (List.mem_append_left _ hb)
  unfold pushList
  rw [hs]

theorem c10_fmt_eq (cfg : Config) (xfrm : String → String)
    (ch1 ch2 : Path → List String) (m : Path → Meta)
    (hch : ∀ p, (ch1 p).Perm (ch2 p))
    (hinj : ∀ p : Path, ∀ a ∈ (ch1 p).map (fun n => p ++ [n]) ++ [p, p ++ [".."]],
      ∀ b ∈ (ch1 p).map (fun n => p ++ [n]) ++ [p, p ++ [".."]],
      xfrm (pathStr a) = xfrm (pathStr b) → a = b)
    (p : Path) :
    formatLinesSingleDir cfg ⟨ch1, m⟩ xfrm p = formatLinesSingleDir cfg ⟨ch2, m⟩ xfrm p := by
  unfold formatLinesSingleDir
  rw [c10_iter_eq cfg xfrm ch1 ch2 m hch hinj p]
  rfl

theorem c10_visit_eq (cfg : Config) (xfrm : String → String)
    (ch1 ch2 : Path → List String) (m : Path → Meta)
    (hch : ∀ p, (ch1 p).Perm (ch2 p))
    (hinj : ∀ p : Path, ∀ a ∈ (ch1 p).map (fun n => p ++ [n]) ++ [p, p ++ [".."]],
      ∀ b ∈ (ch1 p).map (fun n => p ++ [n]) ++ [p, p ++ [".."]],
      xfrm (pathStr a) = xfrm (pathStr b) → a = b) :
    ∀ (fuel : Nat) (stack : List Path),
      lsVisit cfg ⟨ch1, m⟩ xfrm fuel stack = lsVisit cfg ⟨ch2, m⟩ xfrm fuel stack
  | 0, _ => rfl
  | _ + 1, [] => rfl
  | fuel + 1, q :: qs => by
      rw [lsVisit, lsVisit]
      rw [c10_push_eq cfg xfrm ch1 ch2 m hch hinj]
      rw [c10_visit_eq cfg xfrm ch1 ch2 m hch hinj fuel]

theorem c10_render_eq (cfg : Config) (xfrm : String → String)
    (ch1 ch2 : Path → List String) (m : Path → Meta)
    (hch : ∀ p, (ch1 p).Perm (ch2 p))
    (hinj : ∀ p : Path, ∀ a ∈ (ch1 p).map (fun n => p ++ [n]) ++ [p, p ++ [".."]],
      ∀ b ∈ (ch1 p).map (fun n => p ++ [n]) ++ [p, p ++ [".."]],
      xfrm (pathStr a) = xfrm (pathStr b) → a = b) :
    ∀ (l : List Path) (isFirst : Bool),
      renderVisit cfg ⟨ch1, m⟩ xfrm l isFirst = renderVisit cfg ⟨ch2, m⟩ xfrm l isFirst
  | [], _ => rfl
  | p :: rest, isFirst => by
      rw [renderVisit, renderVisit]
      rw [c10_fmt_eq cfg xfrm ch1 ch2 m hch hinj p]
      cases hf : formatLinesSingleDir cfg ⟨ch2, m⟩ xfrm p with
      | none => rfl
      | some body =>
          rw [c10_render_eq cfg xfrm ch1 ch2 m hch hinj rest]

/-- The world of the C10 witness: directory d enumerated as x, y. -/
def ch10a : Path → List String := fun p => if p = ["d"] then ["x", "y"] else []

/-- The same world with d enumerated as y, x. -/
def ch10b : Path → List String := fun p => if p = ["d"] then ["y", "x"] else []

/-- The shared metadata of the C10 witness world. -/
def m10 : Path → Meta := fun _ => {}

/-- The configuration of the C10 witness run: pyls d. -/
def cfg10 : Config := { paths := [["d"]] }

end Pyls

namespace Fallback

/-- The _sort_key of the earlier module src/pyls/pyls.py, the documented
fallback collation: lower-case the name, then strip a single leading ".".
(The Python code tests key[0] == ".", which presumes a nonempty name;
filesystem entry names are never empty, and on the empty string this
embedding returns it unchanged where Python would raise IndexError.) -/
def sort_key (name : String) : String :=
  let key := String.mk (name.data.map Char.toLower)
  match key.data with
  | '.' :: rest => String.mk rest
  | _ => key

/-- The induced dot-insensitive, case-insensitive comparison. -/
def keyLE (a b : String) : Prop := Pyls.pyStrLEb (sort_key a) (sort_key b) = true

instance keyLE.decidable : DecidableRel keyLE :=
  fun a b => instDecidableEqBool (Pyls.pyStrLEb (sort_key a) (sort_key b)) true

instance keyLE.total : IsTotal String keyLE :=
  ⟨fun a b => Pyls.lexLEb_total (sort_key a).data (sort_key b).data⟩

instance keyLE.trans : IsTrans String keyLE :=
  ⟨fun _ _ _ hab hbc => Pyls.lexLEb_trans _ _ _ hab hbc⟩

/-- The _iterate_dir_alphabetically of src/pyls/pyls.py: with -a it yields
"." and ".." first, then the children sorted by sort_key, skipping names
whose first character is "." when -a is off. -/
def iterDirAlpha (show_all : Bool) (children : List String) : List String :=
  (if show_all then [".", ".."] else []) ++
    (List.insertionSort keyLE children).filter
      (fun n => show_all || !(n.data.head? == some '.'))

end Fallback

namespace Pyls

/-- C1: the short-format packer contradicts the claimed candidate range and
fallback.  At terminal width 5 the Python candidate list
range(1, max(1, 5 / 3)) is empty and col_layouts[-1] raises IndexError
(modelled as none), where the claim prescribes the single candidate 1.  At
width 20 the claimed range 1..max(1, 20 / 3) = 1..6 is truncated by the code
to 1..5, so six one-character names get 5 columns although 6 columns would be
feasible and larger.  And when no candidate is feasible (one 30-character
name at width 20) the code returns the largest candidate, 5 columns, not the
claimed fallback of exactly 1 column. -/
theorem c1_column_candidate_range_eval :
    getOptimalColumnLayout ["x"] 5 = none ∧
    Option.map ColumnInfo.num_cols (getOptimalColumnLayout ["a", "b", "c", "d", "e", "f"] 20) =
      some 5 ∧
    Option.map ColumnInfo.num_cols
      (getOptimalColumnLayout [String.mk (List.replicate 30 'a')] 20) = some 5 := by
  refine ⟨rfl, ?_, ?_⟩ <;> decide

/-- C2: the short-format renderer at the claim's example of 13 names of
display length 5 at terminal width 20.  The packer does choose 2 columns and
ceil(13 / 2) = 7 rows, entries are placed column-major (index i at row
i mod 7, column i div 7), the last row holds a single entry, and an empty
name list renders no rows; but every cell, the entry in the last column of
each row included, is left-justified to its column width of 7, so each line
carries two trailing spaces where the claim says the last column is emitted
unpadded. -/
theorem c2_short_format_render_eval :
    linesShortManyPerLine thirteenNames 20 =
      some ["f0001  f0008  ", "f0002  f0009  ", "f0003  f0010  ", "f0004  f0011  ",
            "f0005  f0012  ", "f0006  f0013  ", "f0007  "] ∧
    Option.map ColumnInfo.num_cols (getOptimalColumnLayout thirteenNames 20) = some 2 ∧
    linesShortManyPerLine [] 20 = some [] := by
  refine ⟨?_, ?_, ?_⟩ <;> decide

/-- C3: the documented fallback collation lower-cases the name and strips a
single leading dot before comparing, so dot-prefixed and non-dot names
interleave by this dot-insensitive, case-insensitive comparison; in any
directory listing that shows both ".bar" and "foo", every occurrence of
".bar" is placed before every occurrence of "foo", because
sort_key ".bar" = "bar" precedes sort_key "foo" = "foo".  (A listing exhibits
".bar" only when hidden entries are shown, hence show_all = true.) -/
theorem c3_fallback_collation_dot_order :
    (Fallback.sort_key ".bar" = "bar" ∧ Fallback.sort_key "FOO.txt" = "foo.txt" ∧
      Fallback.sort_key "..x" = ".x") ∧
    ∀ (children : List String), ".bar" ∈ children → "foo" ∈ children →
      ∀ (i j : Nat),
        (Fallback.iterDirAlpha true children)[i]? = some ".bar" →
        (Fallback.iterDirAlpha true children)[j]? = some "foo" → i < j := by
  refine ⟨⟨by decide, by decide, by decide⟩, ?_⟩
  intro children _ _ i j hgi hgj
  have hout : Fallback.iterDirAlpha true children =
      "." :: ".." :: List.insertionSort Fallback.keyLE children := by
    simp [Fallback.iterDirAlpha]
  have hsort := List.sorted_insertionSort Fallback.keyLE children
  rw [hout] at hgi hgj
  rcases i with _ | _ | i
  · rw [List.getElem?_cons_zero] at hgi
    exact absurd (Option.some.inj hgi) (by decide)
  · rw [List.getElem?_cons_succ, List.getElem?_cons_zero] at hgi
    exact absurd (Option.some.inj hgi) (by decide)
  · rcases j with _ | _ | j
    · rw [List.getElem?_cons_zero] at hgj
      exact absurd (Option.some.inj hgj) (by decide)
    · rw [List.getElem?_cons_succ, List.getElem?_cons_zero] at hgj
      exact absurd (Option.some.inj hgj) (by decide)
    · rw [List.getElem?_cons_succ, List.getElem?_cons_succ] at hgi hgj
      obtain ⟨hi2, hgi2⟩ := List.getElem?_eq_some_iff.mp hgi
      obtain ⟨hj2, hgj2⟩ := List.getElem?_eq_some_iff.mp hgj
      by_contra hc
      have hji : j ≤ i := by omega
      rcases Nat.eq_or_lt_of_le hji with he | hlt
      · subst he
        rw [hgi2] at hgj2
        exact absurd hgj2 (by decide)
      · have hrel := hsort.rel_get_of_lt
          (a := ⟨j, hj2⟩) (b := ⟨i, hi2⟩) (by exact hlt)
        rw [List.get_eq_getElem, List.get_eq_getElem] at hrel
        simp only [hgi2, hgj2] at hrel
        exact absurd hrel (by decide)

/-- C3 witness: in the two-entry directory with children ".bar" and "foo",
shown with hidden entries, ".bar" lands at index 2 and "foo" at index 3. -/
theorem c3_fallback_collation_dot_order_witness :
    ".bar" ∈ ([".bar", "foo"] : List String) ∧ (2 : Nat) < 3 := by
  refine ⟨by decide, ?_⟩
  exact c3_fallback_collation_dot_order.2 [".bar", "foo"] (by decide) (by decide) 2 3
    (by decide) (by decide)

/-- C4 (amended): for every configuration (BySize included) the requested
roots are pushed onto the traversal stack sorted by the ACTIVE sort key in
reverse — the name key, or the (negated size, name) key under BySize — so
popping yields ascending active-key order; in recursive mode each visited
directory's non-hidden, non-symlink child directories are pushed sorted by
the active key in reverse, popping ascending; and the resulting pop
sequence is exactly the depth-first pre-order walk dfsP (each directory
first, then the walks of its pushed children in ascending key order).
Under ByName the active key is the name key, giving ascending name order. -/
theorem c4_traversal_configured_key_order :
    (∀ (cfg : Config) (fs : FS) (xfrm : String → String),
      initStack cfg fs xfrm = pySortDesc cfg fs xfrm cfg.paths ∧
      (initStack cfg fs xfrm).reverse.Sorted (keyRel cfg fs xfrm)) ∧
    (∀ (cfg : Config) (fs : FS) (xfrm : String → String) (p : Path),
      (pushList cfg fs xfrm p).reverse.Sorted (keyRel cfg fs xfrm)) ∧
    (∀ (cfg : Config) (xfrm : String → String) (t : FTree) (fuel : Nat) (stack : List Path),
      wfTree t = true → stackWeight t stack ≤ fuel →
      lsVisit cfg (toFS t) xfrm fuel stack = stack.reverse.flatMap (dfsP cfg xfrm t)) :=
  ⟨fun cfg fs xfrm => ⟨rfl, pySortDesc_reverse_sorted cfg fs xfrm cfg.paths⟩,
   fun cfg fs xfrm p => pushList_reverse_sorted cfg fs xfrm p,
   fun cfg xfrm t fuel stack hwf h => lsVisit_eq_dfs cfg xfrm t hwf fuel stack h⟩

/-- C4 witness: on the tree with subdirectories a (containing c) and b, the
recursive traversal from the root pops the root, a, a/c, b — the pre-order
walk. -/
theorem c4_traversal_configured_key_order_witness :
    wfTree t4w = true ∧
    lsVisit cfg4w (toFS t4w) id 9 [[]] =
      ([[]] : List Path).reverse.flatMap (dfsP cfg4w id t4w) :=
  ⟨by decide, c4_traversal_configured_key_order.2.2 cfg4w id t4w 9 [[]] (by decide) (by decide)⟩

/-- C4 counterexample: with BySize enabled the roots a (1 byte) and b
(2 bytes) are popped in descending-size order b, a, not in the ascending
name order a, b that the claim's name-order key would give. -/
theorem c4_size_ordered_roots_counterexample :
    lsVisit cfg4 fs4 id 5 (initStack cfg4 fs4 id) = [["b"], ["a"]] ∧
    ¬ (lsVisit cfg4 fs4 id 5 (initStack cfg4 fs4 id) = [["a"], ["b"]]) := by
  refine ⟨by decide, by decide⟩

/-- C5: with hidden entries shown, a ByName listing emits the synthesized "."
and ".." pseudo-entries first, before and not sorted among the directory's
children (the remainder is exactly the children, sorted), while a BySize
listing sorts "." and ".." together with the children under the same size
key; the pseudo-entries' keys read the directory metadata stored at the
directory's own path and at path / ".." (which lstat resolves to the parent
directory). -/
theorem c5_pseudo_entries_order (cfg : Config) (fs : FS) (xfrm : String → String) (p : Path)
    (hall : cfg.show_all = true) :
    (cfg.sort_by_size = false →
      ∃ rest, iterSingleDirChildren cfg fs xfrm p = p :: (p ++ [".."]) :: rest ∧
        rest.Perm (childPaths fs p) ∧ rest.Sorted (keyRel cfg fs xfrm)) ∧
    (cfg.sort_by_size = true →
      (iterSingleDirChildren cfg fs xfrm p).Perm (childPaths fs p ++ [p, p ++ [".."]]) ∧
      (iterSingleDirChildren cfg fs xfrm p).Sorted (keyRel cfg fs xfrm)) := by
  have hfilter : ∀ l : List Path, l.filter (fun q => !isHiddenPath cfg q) = l := by
    intro l
    apply List.filter_eq_self.mpr
    intro a _
    simp [isHiddenPath, hall]
  constructor
  · intro hsz
    refine ⟨pySortAsc cfg fs xfrm (childPaths fs p), ?_, ?_, ?_⟩
    · unfold iterSingleDirChildren
      rw [hall, hsz]
      simp only [Bool.not_false, Bool.and_true, Bool.and_false, if_true, if_false]
      rw [hfilter]
      rfl
    · exact List.perm_insertionSort _ _
    · exact List.sorted_insertionSort _ _
  · intro hsz
    have hiter : iterSingleDirChildren cfg fs xfrm p =
        pySortAsc cfg fs xfrm (childPaths fs p ++ [p, p ++ [".."]]) := by
      unfold iterSingleDirChildren
      rw [hall, hsz]
      simp only [Bool.not_true, Bool.and_true, Bool.and_false, if_true, if_false]
      rw [hfilter]
      rfl
    rw [hiter]
    exact ⟨List.perm_insertionSort _ _, List.sorted_insertionSort _ _⟩

/-- C5 witness: in the directory d with children x and y, shown with hidden
entries in name order, the listing starts with "." and ".." and continues
with the sorted children. -/
theorem c5_pseudo_entries_order_witness :
    cfg5.show_all = true ∧
    ∃ rest, iterSingleDirChildren cfg5 fs5 id ["d"] = ["d"] :: ["d", ".."] :: rest ∧
      rest.Perm (childPaths fs5 ["d"]) ∧ rest.Sorted (keyRel cfg5 fs5 id) :=
  ⟨rfl, (c5_pseudo_entries_order cfg5 fs5 id ["d"] rfl).1 rfl⟩

/-- C6: sorting BySize orders every directory's entries by strictly
descending size, equal sizes ordered by the ByName key; in particular the
entries a.txt (2 bytes), b.txt (3 bytes), c.txt (1 byte) list in the order
b.txt, a.txt, c.txt. -/
theorem c6_by_size_descending_tiebreak (cfg : Config) (fs : FS) (xfrm : String → String)
    (p : Path) (hsz : cfg.sort_by_size = true) :
    (iterSingleDirChildren cfg fs xfrm p).Sorted (bySizeOrd fs xfrm) ∧
    (iterSingleDirChildren cfg6 fs6 id ["d"]).map pathName = ["b.txt", "a.txt", "c.txt"] := by
  constructor
  · have hsorted : ∀ l : List Path,
        ((pySortAsc cfg fs xfrm l).filter
          (fun q => !isHiddenPath cfg q)).Sorted (bySizeOrd fs xfrm) := by
      intro l
      have h1 : (pySortAsc cfg fs xfrm l).Sorted (keyRel cfg fs xfrm) :=
        List.sorted_insertionSort _ _
      have h2 := List.Pairwise.sublist
        (List.filter_sublist (p := fun q => !isHiddenPath cfg q) (pySortAsc cfg fs xfrm l)) h1
      exact h2.imp (fun h => keyRel_imp_bySizeOrd cfg fs xfrm hsz _ _ h)
    unfold iterSingleDirChildren
    rw [hsz]
    cases hsa : cfg.show_all <;> simp only [Bool.and_true, Bool.and_false, Bool.not_true,
      Bool.false_and, Bool.true_and, if_false, if_true, List.nil_append] <;> exact hsorted _
  · decide

/-- C6 witness: the size-ordered listing of the example directory is sorted
under the descending-size, name-tie-broken ordering. -/
theorem c6_by_size_descending_tiebreak_witness :
    cfg6.sort_by_size = true ∧
    (iterSingleDirChildren cfg6 fs6 id ["d"]).Sorted (bySizeOrd fs6 id) :=
  ⟨rfl, (c6_by_size_descending_tiebreak cfg6 fs6 id ["d"] rfl).1⟩

/-- C7 (amended): a header line "{path}:" is emitted for a directory exactly
when more than one root was requested or recursion is enabled, the very
first header emitted overall carries no leading blank line, and every
subsequent header carries exactly one (this is the renderVisit shape, proved
equal to ls_lines for every configuration, filesystem, fuel, stack and
first-flag); since the roots are emitted in sorted key order, listing the
two roots foo and bar non-recursively emits bar first, and the single blank
line immediately precedes the foo: header, with none before bar:. -/
theorem c7_header_blank_line_rule :
    (∀ (cfg : Config) (fs : FS) (xfrm : String → String) (fuel : Nat) (stack : List Path)
      (isFirst : Bool),
      lsLinesAux cfg fs xfrm fuel stack isFirst =
        renderVisit cfg fs xfrm (lsVisit cfg fs xfrm fuel stack) isFirst) ∧
    lsLines cfg7 fs7 id 5 = some ["bar:", "\nfoo:"] :=
  ⟨fun cfg fs xfrm => lsLinesAux_eq_renderVisit cfg fs xfrm, by decide⟩

/-- C7 counterexample: in the two-root run pyls foo bar, the header that
carries the blank-line prefix is foo: (the second in sorted order), and the
bar: header carries none — the claim places the blank line before bar: and
none before foo:, which the run refutes. -/
theorem c7_blank_line_placement_counterexample :
    lsLines cfg7 fs7 id 5 = some ["bar:", "\nfoo:"] ∧
    "\nfoo:" ∈ (lsLines cfg7 fs7 id 5).getD [] ∧
    ¬ ("\nbar:" ∈ (lsLines cfg7 fs7 id 5).getD []) := by
  refine ⟨by decide, by decide, by decide⟩

/-- C8 (amended): the recursive step never pushes a symlink (every pushed
child is a non-hidden, non-symlink directory), so a directory reachable
only via a symlink is never expanded; and no entry is visited twice
provided no requested root is a duplicate of, or an extension of, another
requested root. -/
theorem c8_no_revisit_no_symlink_push :
    (∀ (cfg : Config) (fs : FS) (xfrm : String → String) (p q : Path),
      q ∈ pushList cfg fs xfrm p →
        (fs.meta q).is_symlink = false ∧ (fs.meta q).is_dir = true ∧
          isHiddenPath cfg q = false) ∧
    (∀ (cfg : Config) (xfrm : String → String) (t : FTree) (fuel : Nat),
      wfTree t = true → cfg.paths.Pairwise rootsIndependent →
      stackWeight t (initStack cfg (toFS t) xfrm) ≤ fuel →
      (lsVisit cfg (toFS t) xfrm fuel (initStack cfg (toFS t) xfrm)).Nodup) :=
  ⟨fun cfg fs xfrm p q hq => pushList_props cfg fs xfrm p q hq,
   fun cfg xfrm t fuel hwf hpf hfuel =>
     lsVisit_nodup cfg xfrm t fuel cfg.paths hwf hpf hfuel⟩

/-- C8 witness: the recursive traversal of the two independent roots r1 and
r2 visits no directory twice. -/
theorem c8_no_revisit_no_symlink_push_witness :
    wfTree t8w = true ∧
    (lsVisit cfg8w (toFS t8w) id 9 (initStack cfg8w (toFS t8w) id)).Nodup := by
  refine ⟨by decide, ?_⟩
  refine c8_no_revisit_no_symlink_push.2 cfg8w id t8w 9 (by decide) ?_ (by decide)
  refine List.Pairwise.cons ?_ (List.pairwise_singleton _ _)
  intro b hb
  have hb2 : b = ["r2"] := by simpa using hb
  subst hb2
  constructor
  · intro s h
    injection h with h1 _
    exact absurd h1 (by decide)
  · intro s h
    injection h with h1 _
    exact absurd h1 (by decide)

/-- C8 counterexample: requesting the same root twice (pyls a a) visits the
directory a twice, so as stated — for every configuration — the
no-entry-visited-twice claim fails. -/
theorem c8_duplicate_roots_counterexample :
    lsVisit cfg8 fs8 id 5 (initStack cfg8 fs8 id) = [["a"], ["a"]] ∧
    ¬ (lsVisit cfg8 fs8 id 5 (initStack cfg8 fs8 id)).Nodup := by
  refine ⟨by decide, by decide⟩

/-- C9: the first line of every long-format directory listing is "total {n}"
where n is the sum of the listed entries' allocated blocks (512-byte units)
divided by two with integer division (converting to 1024-byte units); the
long-format renderer is exactly what a list_format configuration makes
format_lines_single_dir apply to the listed children. -/
theorem c9_total_blocks_line (fs : FS) (xfrm : String → String) (cfg : Config) (base : Path)
    (paths : List Path) :
    (linesListFormat fs base paths).head? =
      some ("total " ++ toString ((paths.map (fun p => (fs.meta p).st_blocks)).sum / 2)) ∧
    totalNumBlocks fs paths = (paths.map (fun p => (fs.meta p).st_blocks)).sum / 2 ∧
    formatLinesSingleDir { cfg with list_format := true } fs xfrm base =
      some (linesListFormat fs base
        (iterSingleDirChildren { cfg with list_format := true } fs xfrm base)) :=
  ⟨rfl, rfl, rfl⟩

/-- C10: the rendered output is invariant under the enumeration order of
each directory's children: two runs over the same metadata whose
per-directory child enumerations are permutations of each other produce
identical output for every configuration, collation transform and fuel,
provided the collation key is injective on each directory's enumerated
paths together with that directory's two pseudo-entry paths. -/
theorem c10_enumeration_order_invariant (cfg : Config) (xfrm : String → String)
    (ch1 ch2 : Path → List String) (m : Path → Meta)
    (hch : ∀ p, (ch1 p).Perm (ch2 p))
    (hinj : ∀ p : Path, ∀ a ∈ (ch1 p).map (fun n => p ++ [n]) ++ [p, p ++ [".."]],
      ∀ b ∈ (ch1 p).map (fun n => p ++ [n]) ++ [p, p ++ [".."]],
      xfrm (pathStr a) = xfrm (pathStr b) → a = b)
    (fuel : Nat) :
    lsLines cfg ⟨ch1, m⟩ xfrm fuel = lsLines cfg ⟨ch2, m⟩ xfrm fuel := by
  unfold lsLines
  rw [lsLinesAux_eq_renderVisit, lsLinesAux_eq_renderVisit]
  have hstack : initStack cfg ⟨ch1, m⟩ xfrm = initStack cfg ⟨ch2, m⟩ xfrm := rfl
  rw [hstack, c10_visit_eq cfg xfrm ch1 ch2 m hch hinj fuel,
    c10_render_eq cfg xfrm ch1 ch2 m hch hinj]

/-- C10 witness: the two enumeration orders of d produce identical output. -/
theorem c10_enumeration_order_invariant_witness :
    (∀ p, (ch10a p).Perm (ch10b p)) ∧
    lsLines cfg10 ⟨ch10a, m10⟩ id 5 = lsLines cfg10 ⟨ch10b, m10⟩ id 5 := by
  have hch : ∀ p, (ch10a p).Perm (ch10b p) := by
    intro p
    unfold ch10a ch10b
    split_ifs
    · exact List.Perm.swap "y" "x" []
    · exact List.Perm.refl []
  refine ⟨hch, ?_⟩
  apply c10_enumeration_order_invariant cfg10 id ch10a ch10b m10 hch
  intro p a ha b hb heq
  by_cases hp : p = ["d"]
  · subst hp
    simp only [ch10a, if_true, eq_self_iff_true] at ha hb
    have ha2 : a ∈ [(["d", "x"] : Path), ["d", "y"], ["d"], ["d", ".."]] := by
      simpa using ha
    have hb2 : b ∈ [(["d", "x"] : Path), ["d", "y"], ["d"], ["d", ".."]] := by
      simpa using hb
    simp only [id] at heq
    rcases List.mem_cons.mp ha2 with rfl | ha3 <;>
      [skip; rcases List.mem_cons.mp ha3 with rfl | ha4] <;>
      [skip; skip; rcases List.mem_cons.mp ha4 with rfl | ha5] <;>
      [skip; skip; skip; rcases List.mem_singleton.mp (by simpa using ha5) with rfl] <;>
      (rcases List.mem_cons.mp hb2 with rfl | hb3 <;>
        [skip; rcases List.mem_cons.mp hb3 with rfl | hb4] <;>
        [skip; skip; rcases List.mem_cons.mp hb4 with rfl | hb5] <;>
        [skip; skip; skip; rcases List.mem_singleton.mp (by simpa using hb5) with rfl]) <;>
      first
      | rfl
      | exact absurd heq (by decide)
  · have hempty : ch10a p = [] := by
      unfold ch10a
      simp [hp]
    rw [hempty] at ha hb
    simp only [List.map_nil, List.nil_append] at ha hb
    simp only [id] at heq
    rcases List.mem_cons.mp ha with ha1 | ha2
    · rcases List.mem_cons.mp hb with hb1 | hb2
      · rw [ha1, hb1]
      · have hb3 : b = p ++ [".."] := by simpa using hb2
        exfalso
        rw [ha1, hb3] at heq
        exact pathStr_dotdot_ne p heq.symm
    · have ha3 : a = p ++ [".."] := by simpa using ha2
      rcases List.mem_cons.mp hb with hb1 | hb2
      · exfalso
        rw [ha3, hb1] at heq
        exact pathStr_dotdot_ne p heq
      · have hb3 : b = p ++ [".."] := by simpa using hb2
        rw [ha3, hb3]

end Pyls
